import Mathlib

/-!
Verification development for the `search` package of the repository
(recursive Vault namespace walker): a shallow embedding in Lean 4 of the
data model and the operations of `search` (FoundItem, SplitMount,
joinNonEmpty, ListAPIPath, ReadAPIPath, nameMatch, NameOrRegexMatch,
ReadSecret, WalkVault / recurse / handleLeaf, ListMountsWithFallback,
DetectKV2), together with theorems settling the specification's claims
about them.

Conventions of the embedding:
* Go `interface{}` values decoded from JSON are modelled by the inductive
  type `JSON`; `map[string]interface{}` is an association list
  `List (String × JSON)` (Go map keys are unique; lookups take the first
  binding).
* `*vault.Secret` (possibly nil, with a possibly nil `Data` map) is
  modelled by `Option Secret` with `Secret.data : Option (List (String × JSON))`.
* Errors built with `fmt.Errorf` are plain strings; fallible calls return
  `Except String α`.  Errors from the Vault client used by
  `ListMountsWithFallback` are `VErr`, which distinguishes the
  `*vault.ResponseError` status code (needed for the 403 check).
* The `context.Context` cancellation channel is not modelled (the walker is
  specified here under a never-cancelled context); `regexp.Regexp` matchers
  are modelled as abstract predicates `String → Bool` (`nil` = `none`).
* The package-level mutable `CurrentNamePart` is threaded as an explicit
  `namePart` parameter.
* Recursion of `recurse` is made structural with an explicit fuel
  parameter; the Go function itself can diverge on adversarial listings,
  so theorems hold for every fuel value.
* Go's `path.Clean`, `path.Base`, `strings.Split`/`Join`/`Contains`/
  `TrimPrefix`/`TrimSuffix`/`ToLower` are implemented over `List Char`
  (`String.data`) so that every step is structurally recursive and
  kernel-reducible.
-/

/-- JSON-like dynamic values (Go `interface{}` after JSON decoding). -/
inductive JSON where
  | null
  | str (s : String)
  | num (n : Int)
  | bool (b : Bool)
  | arr (elems : List JSON)
  | obj (fields : List (String × JSON))

/-- Go `key, _ := k.(string)`: the string value, or the zero value `""`. -/
def asString : JSON → String
  | .str s => s
  | _ => ""

/-! ### Character-list implementations of the Go string/path library calls -/

/-- `strings.Split(s, "/")` over the character list. -/
def splitSlash : List Char → List (List Char)
  | [] => [[]]
  | c :: cs =>
    if c = '/' then [] :: splitSlash cs
    else
      match splitSlash cs with
      | [] => [[c]]
      | s :: ss => (c :: s) :: ss

/-- `strings.Join(ss, "/")` over character lists. -/
def joinSlash : List (List Char) → List Char
  | [] => []
  | [s] => s
  | s :: ss => s ++ '/' :: joinSlash ss

/-- `strings.TrimPrefix(s, "/")`: drop one leading slash if present. -/
def trimLeadSlash : List Char → List Char
  | '/' :: cs => cs
  | cs => cs

/-- `strings.TrimSuffix(s, "/")` over a character list: drop one trailing
slash if present. -/
def trimSlashSuf (s : List Char) : List Char :=
  match s.getLast? with
  | some '/' => s.dropLast
  | _ => s

/-- `strings.TrimSuffix(s, "/")` at the `String` level. -/
def trimSuffixSlash (s : String) : String :=
  String.mk (trimSlashSuf s.data)

/-- `strings.HasSuffix(s, "/")`. -/
def hasTrailSlash (s : String) : Bool :=
  match s.data.getLast? with
  | some '/' => true
  | _ => false

/-- Does `s` start with `pre` (`strings.HasPrefix` over character lists)? -/
def charsStartWith : List Char → List Char → Bool
  | _, [] => true
  | [], _ :: _ => false
  | c :: cs, p :: ps => c = p && charsStartWith cs ps

/-- `strings.Contains(s, sub)` over character lists. -/
def listContains (s sub : List Char) : Bool :=
  if charsStartWith s sub then true
  else
    match s with
    | [] => false
    | _ :: cs => listContains cs sub

/-- `strings.ToLower` over a character list (ASCII-faithful). -/
def toLowerChars (l : List Char) : List Char :=
  l.map Char.toLower

/-! ### Go `path.Clean` and `path.Base` -/

/-- One step of the lexical `path.Clean` segment processing: skip empty and
`.` segments, let `..` pop the previous segment (kept verbatim at the start
of a relative path, dropped at the root of a rooted one), push everything
else. -/
def cleanStep (rooted : Bool) (stack : List (List Char)) (seg : List Char) :
    List (List Char) :=
  if seg = [] ∨ seg = ['.'] then stack
  else if seg = ['.', '.'] then
    match stack with
    | [] => if rooted then [] else [['.', '.']]
    | top :: rest => if top = ['.', '.'] then seg :: stack else rest
  else seg :: stack

/-- Go `path.Clean` over a character list (lexical cleaning: collapse
duplicate slashes, eliminate `.` and `..`, drop trailing slash, empty
result becomes `.` or `/`). -/
def pathCleanChars (p : List Char) : List Char :=
  if p = [] then ['.']
  else
    let rooted : Bool := charsStartWith p ['/']
    let stack := (splitSlash p).foldl (cleanStep rooted) []
    let body := joinSlash stack.reverse
    if rooted then
      if body = [] then ['/'] else '/' :: body
    else
      if body = [] then ['.'] else body

/-- Go `path.Clean` at the `String` level. -/
def pathClean (p : String) : String :=
  String.mk (pathCleanChars p.data)

/-- Go `path.Base` over a character list: strip trailing slashes, then take
everything after the final slash; `""` gives `.`, all-slashes gives `/`. -/
def pathBaseChars (p : List Char) : List Char :=
  if p = [] then ['.']
  else
    let q := (p.reverse.dropWhile (· = '/')).reverse
    match (splitSlash q).getLast? with
    | some last => if last = [] then ['/'] else last
    | none => ['/']

/-- Go `path.Base` at the `String` level. -/
def pathBase (p : String) : String :=
  String.mk (pathBaseChars p.data)

/-! ### The `search` package data model -/

/-- `vault.Secret` (only the `Data` field is consumed by the walker);
`data = none` models a nil `Data` map. -/
structure Secret where
  data : Option (List (String × JSON))

/-- `search.LogicalAPI`: the minimal surface used from Vault's logical
client.  `.ok none` models a nil `*vault.Secret` returned without error. -/
structure LogicalAPI where
  list : String → Except String (Option Secret)
  read : String → Except String (Option Secret)

/-- `search.FoundItem`: a discovered secret path with optional value
(Go `Value interface{}` is nil when not fetched, hence `Option`). -/
structure FoundItem where
  Path : String
  Value : Option JSON := none

/-! ### Address translation (`search.SplitMount`, `joinNonEmpty`,
`ListAPIPath`, `ReadAPIPath`) -/

/-- `search.joinNonEmpty`: join the nonempty elements with `"/"`. -/
def joinNonEmpty (elems : List String) : String :=
  String.mk (joinSlash ((elems.map String.data).filter (fun l => l ≠ [])))

/-- `search.SplitMount`: split a path into mount and inner parts
(`strings.TrimPrefix(p, "/")`, then `strings.SplitN(p, "/", 2)`, then
`strings.TrimPrefix(inner, "/")`). -/
def SplitMount (p : String) : String × String :=
  let l := trimLeadSlash p.data
  match splitSlash l with
  | [] => ("", "")
  | m :: rest =>
    (String.mk m, String.mk (trimLeadSlash (joinSlash rest)))

/-- `search.ListAPIPath`: the listing path for a mount/inner pair; kv v2
lists through the `metadata` tree. -/
def ListAPIPath (mount inner : String) (kv2 : Bool) : String :=
  if kv2 then pathClean (joinNonEmpty [mount, "metadata", inner])
  else pathClean (joinNonEmpty [mount, inner])

/-- `search.ReadAPIPath`: the read path for a mount/inner pair; kv v2 reads
through the `data` tree. -/
def ReadAPIPath (mount inner : String) (kv2 : Bool) : String :=
  if kv2 then pathClean (joinNonEmpty [mount, "data", inner])
  else pathClean (joinNonEmpty [mount, inner])

/-! ### Filter predicate (`search.nameMatch`, `search.NameOrRegexMatch`);
the package-level `CurrentNamePart` is passed explicitly as `namePart`. -/

/-- `search.nameMatch`: case-insensitive substring match of the name filter
against the base name. -/
def nameMatch (namePart base : String) : Bool :=
  if namePart = "" then false
  else listContains (toLowerChars base.data) (toLowerChars namePart.data)

/-- `search.NameOrRegexMatch`: with no filters match all; with one filter
use it; with both, OR semantics. -/
def NameOrRegexMatch (namePart baseName logicalPath : String)
    (matcher : Option (String → Bool)) : Bool :=
  let nameProvided := namePart != ""
  match nameProvided, matcher with
  | false, none => true
  | true, none => nameMatch namePart baseName
  | false, some m => m logicalPath
  | true, some m => nameMatch namePart baseName || m logicalPath

/-! ### Value reader (`search.ReadSecret`) -/

/-- `search.ReadSecret`: read a secret and return its data payload
depending on kv version.  For v2 the payload is nested under `"data"`;
an absent or null or non-mapping nested value degrades to an empty
mapping; a nil secret is a "no data at path" error. -/
def ReadSecret (logical : LogicalAPI) (mount inner : String) (kv2 : Bool) :
    Except String JSON :=
  let readPath := ReadAPIPath mount inner kv2
  match logical.read readPath with
  | .error e => .error e
  | .ok none => .error ("no data at " ++ readPath)
  | .ok (some sec) =>
    if kv2 then
      match (sec.data.getD []).lookup "data" with
      | none => .ok (.obj [])
      | some .null => .ok (.obj [])
      | some (.obj m) => .ok (.obj m)
      | some _ => .ok (.obj [])
    else
      .ok (.obj (sec.data.getD []))

/-! ### The walker (`search.handleLeaf`, `search.recurse`,
`search.WalkVault`) -/

/-- `search.handleLeaf`: resolve a leaf.  The Go control flow
(early return when not matching and not fetching; otherwise fetch, then
append iff matching) is written as one conditional per `withValues` mode;
the branches are case-for-case those of the source. -/
def handleLeaf (logical : LogicalAPI) (namePart mount inner : String)
    (kv2 : Bool) (matcher : Option (String → Bool)) (withValues : Bool) :
    Except String (List FoundItem) :=
  let logicalPath := pathClean (joinNonEmpty [mount, inner])
  let base := pathBase logicalPath
  if withValues then
    match ReadSecret logical mount inner kv2 with
    | .error e => .error e
    | .ok val =>
      if NameOrRegexMatch namePart base logicalPath matcher then
        .ok [{ Path := logicalPath, Value := some val }]
      else
        .ok []
  else
    if NameOrRegexMatch namePart base logicalPath matcher then
      .ok [{ Path := logicalPath }]
    else
      .ok []

/-- The `for _, k := range rawKeys` loop body of `search.recurse`, with the
recursive call abstracted as `rec` (applied to the next inner path and next
depth) and leaf resolution abstracted as `handle`.  Keys with the trailing
slash are subtrees: recursion is pruned when the next depth would reach
`maxDepth`; other keys are leaf candidates, skipped when `depth+1` exceeds
`maxDepth`.  Results accumulate in traversal order. -/
def walkKeys (handle : String → Except String (List FoundItem))
    (rec : String → Nat → Except String (List FoundItem))
    (maxDepth : Nat) (inner : String) (depth : Nat) :
    List JSON → Except String (List FoundItem)
  | [] => .ok []
  | kj :: ks =>
    let key := asString kj
    if hasTrailSlash key then
      if maxDepth > 0 ∧ depth + 1 ≥ maxDepth then
        walkKeys handle rec maxDepth inner depth ks
      else
        match rec (joinNonEmpty [trimSuffixSlash inner, trimSuffixSlash key])
            (depth + 1) with
        | .error e => .error e
        | .ok items =>
          match walkKeys handle rec maxDepth inner depth ks with
          | .error e => .error e
          | .ok rest => .ok (items ++ rest)
    else
      if maxDepth > 0 ∧ depth + 1 > maxDepth then
        walkKeys handle rec maxDepth inner depth ks
      else
        match handle (joinNonEmpty [inner, key]) with
        | .error e => .error e
        | .ok items =>
          match walkKeys handle rec maxDepth inner depth ks with
          | .error e => .error e
          | .ok rest => .ok (items ++ rest)

/-- `search.recurse`: the depth-first traversal.  A nil secret or nil data
from the list call means the current path is a leaf; a listing without a
`"keys"` array is a protocol error; list-call errors propagate.  `fuel`
bounds the recursion structurally (the Go original recurses unboundedly);
all theorems hold for arbitrary fuel. -/
def recurse (logical : LogicalAPI) (namePart mount : String) (kv2 : Bool)
    (maxDepth : Nat) (matcher : Option (String → Bool)) (withValues : Bool) :
    Nat → String → Nat → Except String (List FoundItem)
  | 0, _, _ => .error "recursion limit exceeded"
  | fuel + 1, inner, depth =>
    if maxDepth > 0 ∧ depth > maxDepth then .ok []
    else
      let listPath := ListAPIPath mount inner kv2
      match logical.list listPath with
      | .error e => .error e
      | .ok none => handleLeaf logical namePart mount inner kv2 matcher withValues
      | .ok (some sec) =>
        match sec.data with
        | none => handleLeaf logical namePart mount inner kv2 matcher withValues
        | some data =>
          match data.lookup "keys" with
          | some (.arr rawKeys) =>
            walkKeys
              (fun leafInner =>
                handleLeaf logical namePart mount leafInner kv2 matcher withValues)
              (recurse logical namePart mount kv2 maxDepth matcher withValues fuel)
              maxDepth inner depth rawKeys
          | _ => .error ("unexpected list response at " ++ listPath)

/-- Go's `<` on strings (lexicographic; UTF-8 byte order coincides with
code-point order), over character lists. -/
def charsLt : List Char → List Char → Bool
  | [], [] => false
  | [], _ :: _ => true
  | _ :: _, [] => false
  | a :: as, b :: bs => if a = b then charsLt as bs else decide (a < b)

/-- Insertion step of the final `sort.Slice(out, Path <)` of `WalkVault`:
`x` goes after every element strictly below it. -/
def insertByPath (x : FoundItem) : List FoundItem → List FoundItem
  | [] => [x]
  | y :: ys =>
    if charsLt y.Path.data x.Path.data then y :: insertByPath x ys
    else x :: y :: ys

/-- The final path-ascending sort of `WalkVault`
(`sort.Slice(out, func(i,j) { return out[i].Path < out[j].Path })`). -/
def sortByPath (xs : List FoundItem) : List FoundItem :=
  xs.foldr insertByPath []

/-- `search.WalkVault`: split the start path, recurse from depth 0, sort
the collected items by path ascending. -/
def WalkVault (logical : LogicalAPI) (namePart start : String) (kv2 : Bool)
    (maxDepth : Nat) (matcher : Option (String → Bool)) (withValues : Bool)
    (fuel : Nat) : Except String (List FoundItem) :=
  let mi := SplitMount start
  match recurse logical namePart mi.1 kv2 maxDepth matcher withValues fuel mi.2 0 with
  | .error e => .error e
  | .ok out => .ok (sortByPath out)

/-! ### Mount discovery with fallback (`search.ListMountsWithFallback`)
and version detection (`search.DetectKV2`) -/

/-- The errors of the Vault client: a `*vault.ResponseError` with its HTTP
status code (the case `errors.As(err, &respErr)` succeeds on), or any other
error. -/
inductive VErr where
  | resp (statusCode : Nat)
  | other (msg : String)
deriving DecidableEq, Repr

/-- `vault.MountOutput` (the two fields consumed: `Type` and `Options`);
the Go `Options` map is an association list. -/
structure MountOutput where
  type : String := ""
  options : List (String × String) := []
deriving DecidableEq, Repr

/-- The Vault client surface used by mount discovery:
`c.Sys().ListMountsWithContext` and `c.Logical().ReadWithContext`.
The Go result map `map[string]*vault.MountOutput` is an association list
with unique keys. -/
structure VaultClient where
  listMounts : Except VErr (List (String × MountOutput))
  logicalRead : String → Except VErr (Option Secret)

/-- `errors.As(err, &respErr) && respErr.StatusCode == 403`. -/
def isPermissionDenied : VErr → Bool
  | .resp statusCode => statusCode = 403
  | .other _ => false

/-- Go map assignment `out[k] = mo` on the association-list model: replace
the binding if the key is present (keys stay unique), else append. -/
def mapSet (m : List (String × MountOutput)) (k : String) (v : MountOutput) :
    List (String × MountOutput) :=
  if (m.lookup k).isSome then
    m.map (fun p => if p.1 = k then (k, v) else p)
  else
    m ++ [(k, v)]

/-- Building one `*vault.MountOutput` inside `mergeMounts`: `Type` from a
string `"type"` field (zero value otherwise), `Options` from the string
entries of a `"options"` map. -/
def toMountOutput (mm : List (String × JSON)) : MountOutput :=
  { type :=
      match mm.lookup "type" with
      | some (.str t) => t
      | _ => ""
    options :=
      match mm.lookup "options" with
      | some (.obj opts) =>
        opts.filterMap (fun p =>
          match p.2 with
          | .str s => some (p.1, s)
          | _ => none)
      | _ => [] }

/-- `mergeMounts` of `ListMountsWithFallback`: merge a mounts-like map into
the accumulator.  Only map-shaped entries having a `"type"` or an
`"options"` field are accepted; accepted entries are assigned with
`out[k] = mo` (an unconditional overwrite of any earlier binding). -/
def mergeMounts (out : List (String × MountOutput))
    (m : List (String × JSON)) : List (String × MountOutput) :=
  m.foldl
    (fun out p =>
      match p.2 with
      | .obj mm =>
        if (mm.lookup "type").isSome || (mm.lookup "options").isSome then
          mapSet out p.1 (toMountOutput mm)
        else out
      | _ => out)
    out

/-- The unwrapping step of `ListMountsWithFallback`: some Vault versions
nest the mounts map under a `"data"` key (`root := sec.Data; if inner, ok
:= root["data"].(map..); ok { root = inner }`). -/
def unwrapData (secData : List (String × JSON)) : List (String × JSON) :=
  match secData.lookup "data" with
  | some (.obj inner) => inner
  | _ => secData

/-- Step (3) of the fallback merge: every top-level value that is a map is
treated as a candidate section of mounts and merged. -/
def mergeSections (out : List (String × MountOutput))
    (root : List (String × JSON)) : List (String × MountOutput) :=
  root.foldl
    (fun out p =>
      match p.2 with
      | .obj sect => mergeMounts out sect
      | _ => out)
    out

/-- The merge of the fallback response of `ListMountsWithFallback`:
unwrap one `"data"` nesting if present, then merge (1) an explicit
`"mounts"` map, (2) the top level itself, (3) every top-level map as a
candidate section — in that order. -/
def mergeAll (secData : List (String × JSON)) : List (String × MountOutput) :=
  let root := unwrapData secData
  let out : List (String × MountOutput) := []
  let out :=
    match root.lookup "mounts" with
    | some (.obj mountsMap) => mergeMounts out mountsMap
    | _ => out
  let out := mergeMounts out root
  mergeSections out root

/-- `search.ListMountsWithFallback`: list mounts with the standard API; on
a 403 permission error fall back to `sys/internal/ui/mounts` and merge its
response shapes; on any other primary error, or when the fallback fails or
carries no usable data, return the original error. -/
def ListMountsWithFallback (c : VaultClient) :
    Except VErr (List (String × MountOutput)) :=
  match c.listMounts with
  | .ok mounts => .ok mounts
  | .error err =>
    if !isPermissionDenied err then .error err
    else
      match c.logicalRead "sys/internal/ui/mounts" with
      | .error _ => .error err
      | .ok none => .error err
      | .ok (some sec) =>
        match sec.data with
        | none => .error err
        | some secData => .ok (mergeAll secData)

/-- `search.DetectKV2`: determine whether the mount of the start path is KV
v2; the second component is false when detection was impossible. -/
def DetectKV2 (c : VaultClient) (start : String) : Bool × Bool :=
  let mount := (SplitMount start).1
  match ListMountsWithFallback c with
  | .error _ => (false, false)
  | .ok mounts =>
    match mounts.lookup (mount ++ "/") with
    | none => (false, false)
    | some m =>
      if m.type ≠ "kv" then (false, true)
      else
        match m.options.lookup "version" with
        | some v => if v = "2" then (true, true) else (false, true)
        | none => (false, true)

/-! ### Predicates used by the specification's properties -/

/-- The number of `/`-separated segments of a path string
(`strings.Split` length). -/
def segCount (p : String) : Nat :=
  (splitSlash p.data).length

/-- A well-formed path segment: nonempty, slash-free, and not one of the
special `path.Clean` segments `.` and `..`. -/
def wfSeg (l : List Char) : Prop :=
  l ≠ [] ∧ '/' ∉ l ∧ l ≠ ['.'] ∧ l ≠ ['.', '.']

/-- A well-formed listing key, as returned by a Vault-like server: a
well-formed segment, optionally with the trailing slash marking a
subtree. -/
def wfKey (key : String) : Prop :=
  ∃ core, wfSeg core ∧ (key.data = core ∨ key.data = core ++ ['/'])

/-- Every key of every `"keys"` array returned by a listing of `logical`
satisfies `K` (after the Go string cast `k.(string)`). -/
def ListingKeysOK (logical : LogicalAPI) (K : String → Prop) : Prop :=
  ∀ p data keys, logical.list p = .ok (some ⟨some data⟩) →
    data.lookup "keys" = some (.arr keys) →
    ∀ kj ∈ keys, K (asString kj)

/-! ### Concrete fixtures (the fake clients of the repository's tests) -/

/-- A fake `LogicalAPI` backed by finite path tables, as in the
repository's `fakeLogical` test double (a path absent from a table yields
`(nil, nil)`). -/
def fakeLogical (lst rd : List (String × Secret)) : LogicalAPI :=
  { list := fun p => .ok (lst.lookup p)
    read := fun p => .ok (rd.lookup p) }

/-- Fixture for C2 (`TestWalk_MaxDepth`): tree `secret -> {a/, b}`,
`secret/a -> {c}`. -/
def c2api : LogicalAPI :=
  fakeLogical
    [("secret", ⟨some [("keys", .arr [.str "a/", .str "b"])]⟩),
     ("secret/a", ⟨some [("keys", .arr [.str "c"])]⟩)]
    []

/-- Fixture for C3 (`TestHandleLeaf_ListNilTriggersRead`): no listings;
`secret/x` readable. -/
def c3api : LogicalAPI :=
  fakeLogical [] [("secret/x", ⟨some [("k", .str "v")]⟩)]

/-- Fixture for C4: v2 records of the shapes the claim enumerates. -/
def c4api : LogicalAPI :=
  fakeLogical []
    [("kv/data/good", ⟨some [("data", .obj [("a", .str "b")])]⟩),
     ("kv/data/empty", ⟨some [("meta", .num 1)]⟩),
     ("kv/data/nulld", ⟨some [("data", .null)]⟩),
     ("kv/data/bad", ⟨some [("data", .str "oops")]⟩)]

/-- Fixture for C5: primary denied with 403, fallback response usable. -/
def c5deniedOk : VaultClient :=
  { listMounts := .error (.resp 403)
    logicalRead := fun p =>
      if p = "sys/internal/ui/mounts" then
        .ok (some ⟨some [("m1", .obj [("type", .str "kv")])]⟩)
      else .ok none }

/-- Fixture for C5: primary denied with 403, fallback itself failing. -/
def c5deniedBad : VaultClient :=
  { listMounts := .error (.resp 403)
    logicalRead := fun _ => .error (.other "fallback down") }

/-- Fixture for C5: primary failing with a non-permission error. -/
def c5otherErr : VaultClient :=
  { listMounts := .error (.other "network down")
    logicalRead := fun _ => .ok (some ⟨some [("m1", .obj [("type", .str "kv")])]⟩) }

/-- Fixture for C5: primary succeeding. -/
def c5okClient : VaultClient :=
  { listMounts := .ok [("secret/", { type := "kv" })]
    logicalRead := fun _ => .error (.other "unused") }

/-- Fixture for C7: one readable leaf and one unreadable path. -/
def c7api : LogicalAPI :=
  { list := fun _ => .ok none
    read := fun p =>
      if p = "secret/app/config" then .ok (some ⟨some [("k", .str "v")]⟩)
      else .error "read exploded" }

/-- Fixture for C8/C10 (`TestWalkVault_KV1`): tree
`secret -> {a, b/}`, `secret/b -> {c}`, all leaves readable. -/
def c8api : LogicalAPI :=
  fakeLogical
    [("secret", ⟨some [("keys", .arr [.str "a", .str "b/"])]⟩),
     ("secret/b", ⟨some [("keys", .arr [.str "c"])]⟩)]
    [("secret/a", ⟨some [("k", .str "v")]⟩),
     ("secret/b/c", ⟨some [("x", .num 1)]⟩)]

/-- Fixture for C9: mounts of the three relevant kinds. -/
def c9client : VaultClient :=
  { listMounts := .ok
      [("kv2m/", { type := "kv", options := [("version", "2")] }),
       ("kv1m/", { type := "kv", options := [("version", "1")] }),
       ("plainkv/", { type := "kv" }),
       ("cubby/", { type := "cubbyhole" })]
    logicalRead := fun _ => .ok none }

/-- Fixture for C9: a client whose discovery fails entirely. -/
def c9failClient : VaultClient :=
  { listMounts := .error (.other "boom")
    logicalRead := fun _ => .error (.other "boom") }

/-- The counterexample client for C1: primary denied with 403; the
fallback response carries the root name `"top"` both as a valid mount
entry at the unwrapped top level (type `"generic"`) and inside the
per-section map `"sec1"` (type `"kv"`). -/
def c1client : VaultClient :=
  { listMounts := .error (.resp 403)
    logicalRead := fun p =>
      if p = "sys/internal/ui/mounts" then
        .ok (some ⟨some
          [("top", .obj [("type", .str "generic")]),
           ("sec1", .obj [("top", .obj [("type", .str "kv")])])]⟩)
      else .ok none }

theorem lookup_none_iff_notMem {β : Type} (l : List (String × β)) (k : String) :
    l.lookup k = none ↔ k ∉ l.map Prod.fst := by
  induction l with
  | nil => simp
  | cons p t ih =>
    obtain ⟨a, b⟩ := p
    cases hka : k == a with
    | true =>
      have : k = a := by simpa using hka
      subst this
      simp [List.lookup, hka]
    | false =>
      have : ¬ k = a := by simpa using hka
      simp [List.lookup, hka, ih, this]

theorem mapSet_map_fst (out : List (String × MountOutput)) (k : String)
    (v : MountOutput) :
    (mapSet out k v).map Prod.fst =
      if (out.lookup k).isSome then out.map Prod.fst
      else out.map Prod.fst ++ [k] := by
  unfold mapSet
  split
  · rename_i h
    simp only [List.map_map, if_pos h]
    apply List.map_congr_left
    intro p _
    by_cases hp : p.1 = k
    · simp [hp, Function.comp]
    · simp [hp, Function.comp]
  · rename_i h
    simp [if_neg h]

theorem mapSet_nodup (out : List (String × MountOutput)) (k : String)
    (v : MountOutput) (h : (out.map Prod.fst).Nodup) :
    ((mapSet out k v).map Prod.fst).Nodup := by
  rw [mapSet_map_fst]
  split
  · exact h
  · rename_i hn
    have hnone : out.lookup k = none := by
      cases hl : out.lookup k with
      | none => rfl
      | some w => exact absurd (by simp [hl]) hn
    have : k ∉ out.map Prod.fst := (lookup_none_iff_notMem out k).mp hnone
    simp [List.nodup_append, h, this]

theorem mapSet_mem_names (out : List (String × MountOutput)) (k : String)
    (v : MountOutput) : k ∈ (mapSet out k v).map Prod.fst := by
  rw [mapSet_map_fst]
  split
  · rename_i hs
    by_contra hmem
    rw [← lookup_none_iff_notMem out k] at hmem
    simp [hmem] at hs
  · simp

theorem mapSet_names_mono (out : List (String × MountOutput)) (j k : String)
    (v : MountOutput) (h : k ∈ out.map Prod.fst) :
    k ∈ (mapSet out j v).map Prod.fst := by
  rw [mapSet_map_fst]
  split
  · exact h
  · simp [h]

theorem lookup_map_replace (k : String) (v : MountOutput) :
    ∀ (out : List (String × MountOutput)) (w : MountOutput),
      out.lookup k = some w →
      (out.map (fun p => if p.1 = k then (k, v) else p)).lookup k = some v := by
  intro out
  induction out with
  | nil => intro w h; simp at h
  | cons p t ih =>
    intro w h
    obtain ⟨a, b⟩ := p
    by_cases hk : a = k
    · subst hk
      simp only [List.map_cons, if_pos rfl]
      simp [List.lookup]
    · have hka : (k == a) = false := by
        simp only [beq_eq_false_iff_ne, ne_eq]
        exact fun hh => hk hh.symm
      simp only [List.map_cons, if_neg hk]
      simp only [List.lookup, hka] at h ⊢
      exact ih w h

theorem lookup_mapSet_self (out : List (String × MountOutput)) (k : String)
    (v w : MountOutput) (h : out.lookup k = some w) :
    (mapSet out k v).lookup k = some v := by
  unfold mapSet
  rw [if_pos (by simp [h])]
  exact lookup_map_replace k v out w h

theorem mergeMounts_cons (out : List (String × MountOutput))
    (p : String × JSON) (t : List (String × JSON)) :
    mergeMounts out (p :: t) =
      mergeMounts
        (match p.2 with
         | .obj mm =>
           if (mm.lookup "type").isSome || (mm.lookup "options").isSome then
             mapSet out p.1 (toMountOutput mm)
           else out
         | _ => out) t := rfl

theorem mergeMounts_names_mono (m : List (String × JSON)) :
    ∀ (out : List (String × MountOutput)) (k : String),
      k ∈ out.map Prod.fst → k ∈ (mergeMounts out m).map Prod.fst := by
  induction m with
  | nil => intro out k h; exact h
  | cons p t ih =>
    intro out k h
    rw [mergeMounts_cons]
    apply ih
    obtain ⟨a, j⟩ := p
    cases j with
    | obj mm =>
      dsimp only
      split
      · exact mapSet_names_mono out a k _ h
      · exact h
    | null => exact h
    | str s => exact h
    | num n => exact h
    | bool b => exact h
    | arr elems => exact h

theorem mergeMounts_nodup (m : List (String × JSON)) :
    ∀ (out : List (String × MountOutput)),
      (out.map Prod.fst).Nodup → ((mergeMounts out m).map Prod.fst).Nodup := by
  induction m with
  | nil => intro out h; exact h
  | cons p t ih =>
    intro out h
    rw [mergeMounts_cons]
    apply ih
    obtain ⟨a, j⟩ := p
    cases j with
    | obj mm =>
      dsimp only
      split
      · exact mapSet_nodup out a _ h
      · exact h
    | null => exact h
    | str s => exact h
    | num n => exact h
    | bool b => exact h
    | arr elems => exact h

theorem mergeMounts_mem (m : List (String × JSON)) :
    ∀ (out : List (String × MountOutput)) (k : String) (mm : List (String × JSON)),
      (k, JSON.obj mm) ∈ m →
      ((mm.lookup "type").isSome || (mm.lookup "options").isSome) = true →
      k ∈ (mergeMounts out m).map Prod.fst := by
  induction m with
  | nil => intro out k mm h; exact absurd h (List.not_mem_nil _)
  | cons p t ih =>
    intro out k mm h hv
    rw [mergeMounts_cons]
    rcases List.mem_cons.mp h with heq | hmem
    · subst heq
      dsimp only
      rw [if_pos hv]
      exact mergeMounts_names_mono t _ k (mapSet_mem_names out k _)
    · exact ih _ k mm hmem hv

theorem mergeSections_cons (out : List (String × MountOutput))
    (p : String × JSON) (t : List (String × JSON)) :
    mergeSections out (p :: t) =
      mergeSections
        (match p.2 with
         | .obj sect => mergeMounts out sect
         | _ => out) t := rfl

theorem mergeSections_names_mono (root : List (String × JSON)) :
    ∀ (out : List (String × MountOutput)) (k : String),
      k ∈ out.map Prod.fst → k ∈ (mergeSections out root).map Prod.fst := by
  induction root with
  | nil => intro out k h; exact h
  | cons p t ih =>
    intro out k h
    rw [mergeSections_cons]
    apply ih
    obtain ⟨a, j⟩ := p
    cases j with
    | obj sect =>
      exact mergeMounts_names_mono sect out k h
    | null => exact h
    | str s => exact h
    | num n => exact h
    | bool b => exact h
    | arr elems => exact h

theorem mergeSections_nodup (root : List (String × JSON)) :
    ∀ (out : List (String × MountOutput)),
      (out.map Prod.fst).Nodup → ((mergeSections out root).map Prod.fst).Nodup := by
  induction root with
  | nil => intro out h; exact h
  | cons p t ih =>
    intro out h
    rw [mergeSections_cons]
    apply ih
    obtain ⟨a, j⟩ := p
    cases j with
    | obj sect => exact mergeMounts_nodup sect out h
    | null => exact h
    | str s => exact h
    | num n => exact h
    | bool b => exact h
    | arr elems => exact h

theorem mergeSections_mem (root : List (String × JSON)) :
    ∀ (out : List (String × MountOutput)) (s : String)
      (sm : List (String × JSON)) (k : String) (mm : List (String × JSON)),
      (s, JSON.obj sm) ∈ root →
      (k, JSON.obj mm) ∈ sm →
      ((mm.lookup "type").isSome || (mm.lookup "options").isSome) = true →
      k ∈ (mergeSections out root).map Prod.fst := by
  induction root with
  | nil => intro out s sm k mm h; exact absurd h (List.not_mem_nil _)
  | cons p t ih =>
    intro out s sm k mm h hentry hv
    rw [mergeSections_cons]
    rcases List.mem_cons.mp h with heq | hmem
    · subst heq
      dsimp only
      exact mergeSections_names_mono t _ k (mergeMounts_mem sm out k mm hentry hv)
    · exact ih _ s sm k mm hmem hentry hv

/-- C1, counterexample: the claim's first-seen-wins precedence is false on
the code.  With the primary list-mounts call denied (403) and a fallback
response carrying root name `"top"` both as a top-level mount entry (type
`"generic"`) and inside the per-section map `"sec1"` (type `"kv"`), the
claimed precedence (explicit-mounts-key > top-level > per-section,
first-seen wins) demands the top-level entry `"generic"`; the code's
`mergeMounts` assigns `out[k] = mo` unconditionally, so the per-section
entry merged last wins and the result maps `"top"` to type `"kv"`. -/
theorem C1_counterexample :
    ListMountsWithFallback c1client = .ok [("top", { type := "kv" })]
  ∧ ({ type := "kv" } : MountOutput) ≠ { type := "generic" } :=
  ⟨rfl, by decide⟩

/-- C1, amended: in the fallback merge, later merges DO overwrite earlier
ones for the same root name (the Go map assignment `out[k] = mo` replaces
any existing binding), so for a root name occurring both at the unwrapped
top level and inside a per-section map the per-section entry wins; the
merged result still contains every distinct valid root name exactly once:
(1) the result's names are always without duplicates; (2)-(4) every valid
mount entry of the unwrapped top level, of the explicit `"mounts"` map,
and of every per-section map appears among the result's names; (5) the
assignment overwrites an existing binding; (6) on the counterexample
client the per-section entry (type `"kv"`) is the final binding. -/
theorem C1_amended :
    (∀ secData : List (String × JSON), ((mergeAll secData).map Prod.fst).Nodup)
  ∧ (∀ (secData : List (String × JSON)) (k : String) (mm : List (String × JSON)),
      (k, JSON.obj mm) ∈ unwrapData secData →
      ((mm.lookup "type").isSome || (mm.lookup "options").isSome) = true →
      k ∈ (mergeAll secData).map Prod.fst)
  ∧ (∀ (secData : List (String × JSON)) (ms : List (String × JSON))
        (k : String) (mm : List (String × JSON)),
      (unwrapData secData).lookup "mounts" = some (.obj ms) →
      (k, JSON.obj mm) ∈ ms →
      ((mm.lookup "type").isSome || (mm.lookup "options").isSome) = true →
      k ∈ (mergeAll secData).map Prod.fst)
  ∧ (∀ (secData : List (String × JSON)) (s : String)
        (sm : List (String × JSON)) (k : String) (mm : List (String × JSON)),
      (s, JSON.obj sm) ∈ unwrapData secData →
      (k, JSON.obj mm) ∈ sm →
      ((mm.lookup "type").isSome || (mm.lookup "options").isSome) = true →
      k ∈ (mergeAll secData).map Prod.fst)
  ∧ (∀ (out : List (String × MountOutput)) (k : String) (v w : MountOutput),
      out.lookup k = some w → (mapSet out k v).lookup k = some v)
  ∧ ListMountsWithFallback c1client = .ok [("top", { type := "kv" })] := by
  refine ⟨?_, ?_, ?_, ?_, lookup_mapSet_self, rfl⟩
  · intro secData
    simp only [mergeAll]
    apply mergeSections_nodup
    apply mergeMounts_nodup
    cases hms : (unwrapData secData).lookup "mounts" with
    | none => simp
    | some j =>
      cases j with
      | obj ms => exact mergeMounts_nodup ms [] (by simp)
      | null => simp
      | str s => simp
      | num n => simp
      | bool b => simp
      | arr elems => simp
  · intro secData k mm hmem hv
    simp only [mergeAll]
    apply mergeSections_names_mono
    exact mergeMounts_mem _ _ k mm hmem hv
  · intro secData ms k mm hms hmem hv
    simp only [mergeAll, hms]
    apply mergeSections_names_mono
    apply mergeMounts_names_mono
    exact mergeMounts_mem ms [] k mm hmem hv
  · intro secData s sm k mm hsec hmem hv
    simp only [mergeAll]
    exact mergeSections_mem _ _ s sm k mm hsec hmem hv

/-- C1, witness for the amended theorem: completeness instantiated on the
counterexample response, and the overwrite clause instantiated on a
one-binding map. -/
theorem C1_amended_witness :
    "top" ∈ (mergeAll
      [("top", .obj [("type", .str "generic")]),
       ("sec1", .obj [("top", .obj [("type", .str "kv")])])]).map Prod.fst
  ∧ (mapSet [("top", ({ type := "generic" } : MountOutput))] "top"
      { type := "kv" }).lookup "top" = some { type := "kv" } :=
  ⟨C1_amended.2.1 _ "top" [("type", .str "generic")]
      (List.mem_cons_self _ _) rfl,
   C1_amended.2.2.2.2.1 [("top", { type := "generic" })] "top"
      { type := "kv" } { type := "generic" } rfl⟩

theorem charsLt_trichotomy : ∀ a b : List Char,
    charsLt a b = true ∨ a = b ∨ charsLt b a = true := by
  intro a
  induction a with
  | nil =>
    intro b
    cases b with
    | nil => exact Or.inr (Or.inl rfl)
    | cons c cs => exact Or.inl rfl
  | cons c cs ih =>
    intro b
    cases b with
    | nil => exact Or.inr (Or.inr rfl)
    | cons d ds =>
      rcases lt_trichotomy c d with hlt | heq | hgt
      · left
        simp [charsLt, ne_of_lt hlt, hlt]
      · subst heq
        rcases ih ds with h | h | h
        · left; simp [charsLt, h]
        · subst h; exact Or.inr (Or.inl rfl)
        · right; right; simp [charsLt, h]
      · right; right
        simp [charsLt, ne_of_lt hgt, hgt]

theorem charsLt_trans : ∀ a b c : List Char,
    charsLt a b = true → charsLt b c = true → charsLt a c = true := by
  intro a
  induction a with
  | nil =>
    intro b c hab hbc
    cases c with
    | nil =>
      cases b with
      | nil => exact hab
      | cons d ds => simp [charsLt] at hbc
    | cons e es => rfl
  | cons x xs ih =>
    intro b c hab hbc
    cases b with
    | nil => simp [charsLt] at hab
    | cons y ys =>
      cases c with
      | nil => simp [charsLt] at hbc
      | cons z zs =>
        by_cases hxy : x = y
        · subst hxy
          simp only [charsLt, if_pos rfl] at hab
          by_cases hyz : x = z
          · subst hyz
            simp only [charsLt, if_pos rfl] at hbc ⊢
            exact ih ys zs hab hbc
          · simp only [charsLt, if_neg hyz] at hbc ⊢
            exact hbc
        · simp only [charsLt, if_neg hxy] at hab
          have hxy' : x < y := of_decide_eq_true hab
          by_cases hyz : y = z
          · subst hyz
            simp [charsLt, hxy, hxy']
          · simp only [charsLt, if_neg hyz] at hbc
            have hyz' : y < z := of_decide_eq_true hbc
            have hxz : x < z := lt_trans hxy' hyz'
            simp [charsLt, ne_of_lt hxz, hxz]

theorem charsLt_asymm : ∀ a b : List Char,
    charsLt a b = true → charsLt b a = false := by
  intro a
  induction a with
  | nil =>
    intro b hab
    cases b with
    | nil => simp [charsLt] at hab
    | cons d ds => rfl
  | cons x xs ih =>
    intro b hab
    cases b with
    | nil => simp [charsLt] at hab
    | cons y ys =>
      by_cases hxy : x = y
      · subst hxy
        simp only [charsLt, if_pos rfl] at hab ⊢
        exact ih ys hab
      · simp only [charsLt, if_neg hxy] at hab
        have hxy' : x < y := of_decide_eq_true hab
        have : ¬ y = x := fun h => hxy h.symm
        simp [charsLt, this, not_lt_of_lt hxy']

theorem charsNotLt_trans {x y z : List Char}
    (h1 : charsLt y x = false) (h2 : charsLt z y = false) :
    charsLt z x = false := by
  by_contra h
  have hzx : charsLt z x = true := by
    cases hc : charsLt z x with
    | true => rfl
    | false => exact absurd hc h
  rcases charsLt_trichotomy z y with h' | h' | h'
  · rw [h'] at h2; exact Bool.noConfusion h2
  · subst h'
    rw [hzx] at h1; exact Bool.noConfusion h1
  · have := charsLt_trans y z x h' hzx
    rw [this] at h1; exact Bool.noConfusion h1

theorem mem_insertByPath (x : FoundItem) :
    ∀ (l : List FoundItem) (a : FoundItem),
      a ∈ insertByPath x l ↔ a = x ∨ a ∈ l := by
  intro l
  induction l with
  | nil => intro a; simp [insertByPath]
  | cons y ys ih =>
    intro a
    simp only [insertByPath]
    split <;> (simp only [List.mem_cons, ih]; try tauto)

theorem pairwise_insertByPath (x : FoundItem) :
    ∀ (l : List FoundItem),
      List.Pairwise (fun a b : FoundItem => charsLt b.Path.data a.Path.data = false) l →
      List.Pairwise (fun a b : FoundItem => charsLt b.Path.data a.Path.data = false)
        (insertByPath x l) := by
  intro l
  induction l with
  | nil => intro _; simp [insertByPath]
  | cons y ys ih =>
    intro h
    rw [List.pairwise_cons] at h
    obtain ⟨hy, hys⟩ := h
    simp only [insertByPath]
    split
    · rename_i hc
      rw [List.pairwise_cons]
      constructor
      · intro z hz
        rcases (mem_insertByPath x ys z).mp hz with rfl | hz'
        · exact charsLt_asymm _ _ hc
        · exact hy z hz'
      · exact ih hys
    · rename_i hc
      have hyx : charsLt y.Path.data x.Path.data = false := by
        cases hcc : charsLt y.Path.data x.Path.data with
        | true => exact absurd hcc hc
        | false => rfl
      rw [List.pairwise_cons]
      constructor
      · intro z hz
        rcases List.mem_cons.mp hz with rfl | hz'
        · exact hyx
        · exact charsNotLt_trans hyx (hy z hz')
      · rw [List.pairwise_cons]
        exact ⟨hy, hys⟩

theorem sortByPath_pairwise (xs : List FoundItem) :
    List.Pairwise (fun a b : FoundItem => charsLt b.Path.data a.Path.data = false)
      (sortByPath xs) := by
  induction xs with
  | nil => simp [sortByPath]
  | cons x t ih => exact pairwise_insertByPath x (sortByPath t) ih

theorem mem_sortByPath (xs : List FoundItem) (a : FoundItem) :
    a ∈ sortByPath xs ↔ a ∈ xs := by
  induction xs with
  | nil => simp [sortByPath]
  | cons x t ih =>
    show a ∈ insertByPath x (sortByPath t) ↔ _
    rw [mem_insertByPath, ih]
    simp [eq_comm]

/-- C8: batch ordering.  Every successful `WalkVault` result is sorted
ascending by full path string: consecutive and non-consecutive items are
pairwise related by the plain string comparison (never is a later path
strictly below an earlier one). -/
theorem C8_batch_ordering
    (logical : LogicalAPI) (namePart start : String) (kv2 : Bool)
    (maxDepth : Nat) (matcher : Option (String → Bool)) (withValues : Bool)
    (fuel : Nat) (out : List FoundItem)
    (h : WalkVault logical namePart start kv2 maxDepth matcher withValues fuel =
      .ok out) :
    List.Pairwise (fun a b : FoundItem => charsLt b.Path.data a.Path.data = false)
      out := by
  simp only [WalkVault] at h
  cases hrec : recurse logical namePart (SplitMount start).1 kv2 maxDepth matcher
      withValues fuel (SplitMount start).2 0 with
  | error e => rw [hrec] at h; exact Except.noConfusion h
  | ok out0 =>
    rw [hrec] at h
    have : sortByPath out0 = out := by
      injection h
    rw [← this]
    exact sortByPath_pairwise out0

/-- C8, witness: the ordering theorem applied to the concrete KV1 walk of
the repository's tests. -/
theorem C8_batch_ordering_witness :
    List.Pairwise (fun a b : FoundItem => charsLt b.Path.data a.Path.data = false)
      [{ Path := "secret/a", Value := none }, { Path := "secret/b/c", Value := none }] :=
  C8_batch_ordering c8api "" "secret" false 0 none false 10
    [{ Path := "secret/a", Value := none }, { Path := "secret/b/c", Value := none }] rfl

theorem handleLeaf_emits (logical : LogicalAPI) (namePart mount inner : String)
    (kv2 : Bool) (matcher : Option (String → Bool)) (withValues : Bool)
    (items : List FoundItem)
    (h : handleLeaf logical namePart mount inner kv2 matcher withValues =
      .ok items) :
    ∀ it ∈ items, it.Path = pathClean (joinNonEmpty [mount, inner]) ∧
      (withValues = false → it.Value = none) := by
  intro it hit
  cases withValues with
  | false =>
    simp only [handleLeaf, Bool.false_eq_true, if_false] at h
    split at h <;> injection h with h <;> subst h <;>
      simp only [List.mem_singleton, List.not_mem_nil] at hit
    · subst hit; exact ⟨rfl, fun _ => rfl⟩
  | true =>
    simp only [handleLeaf, if_true] at h
    cases hr : ReadSecret logical mount inner kv2 with
    | error e => rw [hr] at h; exact Except.noConfusion h
    | ok v =>
      rw [hr] at h
      dsimp only at h
      split at h <;> injection h with h <;> subst h <;>
        simp only [List.mem_singleton, List.not_mem_nil] at hit
      · subst hit
        exact ⟨rfl, fun hf => Bool.noConfusion hf⟩

theorem walkKeys_emits (Q : FoundItem → Prop)
    (handle : String → Except String (List FoundItem))
    (rec : String → Nat → Except String (List FoundItem))
    (maxDepth : Nat) (inner : String) (depth : Nat) :
    ∀ (ks : List JSON) (out : List FoundItem),
      (∀ kj ∈ ks, hasTrailSlash (asString kj) = false →
        ¬(maxDepth > 0 ∧ depth + 1 > maxDepth) →
        ∀ items, handle (joinNonEmpty [inner, asString kj]) = .ok items →
          ∀ it ∈ items, Q it) →
      (∀ kj ∈ ks, hasTrailSlash (asString kj) = true →
        ¬(maxDepth > 0 ∧ depth + 1 ≥ maxDepth) →
        ∀ items,
          rec (joinNonEmpty [trimSuffixSlash inner, trimSuffixSlash (asString kj)])
            (depth + 1) = .ok items →
          ∀ it ∈ items, Q it) →
      walkKeys handle rec maxDepth inner depth ks = .ok out →
      ∀ it ∈ out, Q it := by
  intro ks
  induction ks with
  | nil =>
    intro out _ _ h
    injection h with h
    subst h
    intro it hit
    exact absurd hit (List.not_mem_nil it)
  | cons kj t ih =>
    intro out hleaf hsub h
    simp only [walkKeys] at h
    by_cases hs : hasTrailSlash (asString kj) = true
    · rw [if_pos hs] at h
      by_cases hg : maxDepth > 0 ∧ depth + 1 ≥ maxDepth
      · rw [if_pos hg] at h
        exact ih out (fun kj' hm => hleaf kj' (List.mem_cons_of_mem _ hm))
          (fun kj' hm => hsub kj' (List.mem_cons_of_mem _ hm)) h
      · rw [if_neg hg] at h
        cases hrec : rec
            (joinNonEmpty [trimSuffixSlash inner, trimSuffixSlash (asString kj)])
            (depth + 1) with
        | error e => rw [hrec] at h; exact Except.noConfusion h
        | ok items =>
          rw [hrec] at h
          cases hwk : walkKeys handle rec maxDepth inner depth t with
          | error e => rw [hwk] at h; exact Except.noConfusion h
          | ok rest =>
            rw [hwk] at h
            injection h with h
            subst h
            intro it hit
            rcases List.mem_append.mp hit with hin | hin
            · exact hsub kj (List.mem_cons_self _ _) hs hg items hrec it hin
            · exact ih rest (fun kj' hm => hleaf kj' (List.mem_cons_of_mem _ hm))
                (fun kj' hm => hsub kj' (List.mem_cons_of_mem _ hm)) hwk it hin
    · have hs0 : hasTrailSlash (asString kj) = false := by
        cases hss : hasTrailSlash (asString kj) with
        | true => exact absurd hss hs
        | false => rfl
      rw [if_neg hs] at h
      by_cases hg : maxDepth > 0 ∧ depth + 1 > maxDepth
      · rw [if_pos hg] at h
        exact ih out (fun kj' hm => hleaf kj' (List.mem_cons_of_mem _ hm))
          (fun kj' hm => hsub kj' (List.mem_cons_of_mem _ hm)) h
      · rw [if_neg hg] at h
        cases hhl : handle (joinNonEmpty [inner, asString kj]) with
        | error e => rw [hhl] at h; exact Except.noConfusion h
        | ok items =>
          rw [hhl] at h
          cases hwk : walkKeys handle rec maxDepth inner depth t with
          | error e => rw [hwk] at h; exact Except.noConfusion h
          | ok rest =>
            rw [hwk] at h
            injection h with h
            subst h
            intro it hit
            rcases List.mem_append.mp hit with hin | hin
            · exact hleaf kj (List.mem_cons_self _ _) hs0 hg items hhl it hin
            · exact ih rest (fun kj' hm => hleaf kj' (List.mem_cons_of_mem _ hm))
                (fun kj' hm => hsub kj' (List.mem_cons_of_mem _ hm)) hwk it hin

theorem recurse_emits
    (logical : LogicalAPI) (namePart mount : String) (kv2 : Bool)
    (maxDepth : Nat) (matcher : Option (String → Bool)) (withValues : Bool)
    (K : String → Prop) (I : String → Nat → Prop) (Q : FoundItem → Prop)
    (hK : ListingKeysOK logical K)
    (hsub : ∀ inner depth key, I inner depth → K key →
      hasTrailSlash key = true →
      ¬(maxDepth > 0 ∧ depth + 1 ≥ maxDepth) →
      I (joinNonEmpty [trimSuffixSlash inner, trimSuffixSlash key]) (depth + 1))
    (hleafSelf : ∀ inner depth items, I inner depth →
      ¬(maxDepth > 0 ∧ depth > maxDepth) →
      handleLeaf logical namePart mount inner kv2 matcher withValues = .ok items →
      ∀ it ∈ items, Q it)
    (hleafKey : ∀ inner depth key items, I inner depth → K key →
      hasTrailSlash key = false →
      ¬(maxDepth > 0 ∧ depth > maxDepth) →
      ¬(maxDepth > 0 ∧ depth + 1 > maxDepth) →
      handleLeaf logical namePart mount (joinNonEmpty [inner, key]) kv2 matcher
        withValues = .ok items →
      ∀ it ∈ items, Q it) :
    ∀ (fuel : Nat) (inner : String) (depth : Nat) (out : List FoundItem),
      I inner depth →
      recurse logical namePart mount kv2 maxDepth matcher withValues fuel inner
        depth = .ok out →
      ∀ it ∈ out, Q it := by
  intro fuel
  induction fuel with
  | zero =>
    intro inner depth out _ h
    simp only [recurse] at h
    exact Except.noConfusion h
  | succ n ih =>
    intro inner depth out hI h
    simp only [recurse] at h
    by_cases hg : maxDepth > 0 ∧ depth > maxDepth
    · rw [if_pos hg] at h
      injection h with h
      subst h
      intro it hit
      exact absurd hit (List.not_mem_nil it)
    · rw [if_neg hg] at h
      cases hl : logical.list (ListAPIPath mount inner kv2) with
      | error e => rw [hl] at h; exact Except.noConfusion h
      | ok secOpt =>
        rw [hl] at h
        cases secOpt with
        | none => exact hleafSelf inner depth out hI hg h
        | some sec =>
          obtain ⟨sd⟩ := sec
          cases sd with
          | none => exact hleafSelf inner depth out hI hg h
          | some data =>
            dsimp only at h
            cases hk : data.lookup "keys" with
            | none => rw [hk] at h; exact Except.noConfusion h
            | some j =>
              rw [hk] at h
              cases j with
              | arr rawKeys =>
                refine walkKeys_emits Q _ _ maxDepth inner depth rawKeys out
                  ?_ ?_ h
                · intro kj hm hs hg' items hh it hit
                  exact hleafKey inner depth (asString kj) items hI
                    (hK (ListAPIPath mount inner kv2) data rawKeys hl hk kj hm)
                    hs hg hg' hh it hit
                · intro kj hm hs hg' items hh it hit
                  exact ih
                    (joinNonEmpty [trimSuffixSlash inner,
                       trimSuffixSlash (asString kj)])
                    (depth + 1) items
                    (hsub inner depth (asString kj) hI
                      (hK (ListAPIPath mount inner kv2) data rawKeys hl hk kj hm)
                      hs hg')
                    hh it hit
              | null => exact Except.noConfusion h
              | str s => exact Except.noConfusion h
              | num nn => exact Except.noConfusion h
              | bool b => exact Except.noConfusion h
              | obj fields => exact Except.noConfusion h

/-- C10: no values when disabled.  For every walk with value fetching
disabled, every emitted `FoundItem` carries no value (`Value = none`). -/
theorem C10_no_values_when_disabled
    (logical : LogicalAPI) (namePart start : String) (kv2 : Bool)
    (maxDepth : Nat) (matcher : Option (String → Bool)) (fuel : Nat)
    (out : List FoundItem)
    (h : WalkVault logical namePart start kv2 maxDepth matcher false fuel =
      .ok out) :
    ∀ it ∈ out, it.Value = none := by
  simp only [WalkVault] at h
  cases hrec : recurse logical namePart (SplitMount start).1 kv2 maxDepth matcher
      false fuel (SplitMount start).2 0 with
  | error e => rw [hrec] at h; exact Except.noConfusion h
  | ok out0 =>
    rw [hrec] at h
    injection h with h
    subst h
    intro it hit
    have hit0 : it ∈ out0 := (mem_sortByPath out0 it).mp hit
    refine recurse_emits logical namePart (SplitMount start).1 kv2 maxDepth
      matcher false (fun _ => True) (fun _ _ => True) (fun it => it.Value = none)
      (fun _ _ _ _ _ _ _ => trivial)
      (fun _ _ _ _ _ _ _ => trivial)
      ?_ ?_ fuel (SplitMount start).2 0 out0 trivial hrec it hit0
    · intro inner depth items _ _ hh it' hit'
      exact (handleLeaf_emits logical namePart (SplitMount start).1 inner kv2
        matcher false items hh it' hit').2 rfl
    · intro inner depth key items _ _ _ _ _ hh it' hit'
      exact (handleLeaf_emits logical namePart (SplitMount start).1
        (joinNonEmpty [inner, key]) kv2 matcher false items hh it' hit').2 rfl

/-- C10, witness: the theorem applied to the concrete KV1 walk. -/
theorem C10_no_values_when_disabled_witness :
    ({ Path := "secret/a", Value := none } : FoundItem).Value = none
  ∧ ({ Path := "secret/b/c", Value := none } : FoundItem).Value = none :=
  ⟨C10_no_values_when_disabled c8api "" "secret" false 0 none 10
      [{ Path := "secret/a", Value := none },
       { Path := "secret/b/c", Value := none }]
      rfl { Path := "secret/a", Value := none } (by simp),
   C10_no_values_when_disabled c8api "" "secret" false 0 none 10
      [{ Path := "secret/a", Value := none },
       { Path := "secret/b/c", Value := none }]
      rfl { Path := "secret/b/c", Value := none } (by simp)⟩

theorem splitSlash_noSlash (s : List Char) (h : '/' ∉ s) : splitSlash s = [s] := by
  induction s with
  | nil => rfl
  | cons c cs ih =>
    have hc : ¬ c = '/' := fun hh => h (hh ▸ List.mem_cons_self c cs)
    have hcs : '/' ∉ cs := fun hm => h (List.mem_cons_of_mem c hm)
    simp only [splitSlash, if_neg hc, ih hcs]

theorem splitSlash_append (s t : List Char) (h : '/' ∉ s) :
    splitSlash (s ++ '/' :: t) = s :: splitSlash t := by
  induction s with
  | nil => simp [splitSlash]
  | cons c cs ih =>
    have hc : ¬ c = '/' := fun hh => h (hh ▸ List.mem_cons_self c cs)
    have hcs : '/' ∉ cs := fun hm => h (List.mem_cons_of_mem c hm)
    simp only [List.cons_append, splitSlash, if_neg hc, List.append_eq, ih hcs]

theorem splitSlash_joinSlash (segs : List (List Char))
    (h : ∀ s ∈ segs, '/' ∉ s) (hne : segs ≠ []) :
    splitSlash (joinSlash segs) = segs := by
  induction segs with
  | nil => exact absurd rfl hne
  | cons s t ih =>
    cases t with
    | nil => exact splitSlash_noSlash s (h s (List.mem_cons_self _ _))
    | cons s2 t2 =>
      show splitSlash (s ++ '/' :: joinSlash (s2 :: t2)) = _
      rw [splitSlash_append s _ (h s (List.mem_cons_self _ _))]
      rw [ih (fun x hx => h x (List.mem_cons_of_mem _ hx)) (by simp)]

theorem joinSlash_ne_nil (s : List Char) (t : List (List Char)) (h : s ≠ []) :
    joinSlash (s :: t) ≠ [] := by
  cases t with
  | nil => exact h
  | cons s2 t2 =>
    show s ++ '/' :: joinSlash (s2 :: t2) ≠ []
    simp

theorem headChar_joinSlash (s : List Char) (t : List (List Char)) (h : s ≠ []) :
    (joinSlash (s :: t)).head? = s.head? := by
  cases t with
  | nil => rfl
  | cons s2 t2 =>
    show (s ++ '/' :: joinSlash (s2 :: t2)).head? = s.head?
    cases s with
    | nil => exact absurd rfl h
    | cons c cs => rfl

theorem getLast_joinSlash (segs : List (List Char))
    (h : ∀ s ∈ segs, wfSeg s) : (joinSlash segs).getLast? ≠ some '/' := by
  induction segs with
  | nil => simp [joinSlash]
  | cons s t ih =>
    cases t with
    | nil =>
      show s.getLast? ≠ some '/'
      intro hlast
      obtain ⟨hne, heq⟩ := List.mem_getLast?_eq_getLast
        (show '/' ∈ s.getLast? from hlast ▸ rfl)
      exact (h s (List.mem_cons_self _ _)).2.1 (heq ▸ List.getLast_mem hne)
    | cons s2 t2 =>
      show (s ++ '/' :: joinSlash (s2 :: t2)).getLast? ≠ some '/'
      have hne2 : joinSlash (s2 :: t2) ≠ [] :=
        joinSlash_ne_nil s2 t2 (h s2 (by simp)).1
      have h2 := ih (fun x hx => h x (List.mem_cons_of_mem _ hx))
      rw [List.getLast?_append_of_ne_nil s (by simp)]
      cases hjs : joinSlash (s2 :: t2) with
      | nil => exact absurd hjs hne2
      | cons a l =>
        rw [List.getLast?_cons_cons]
        rw [hjs] at h2
        exact h2

theorem joinSlash_concat (segs : List (List Char)) (core : List Char)
    (hne : segs ≠ []) :
    joinSlash (segs ++ [core]) = joinSlash segs ++ '/' :: core := by
  induction segs with
  | nil => exact absurd rfl hne
  | cons s t ih =>
    cases t with
    | nil => rfl
    | cons s2 t2 =>
      show s ++ '/' :: joinSlash ((s2 :: t2) ++ [core]) =
        (s ++ '/' :: joinSlash (s2 :: t2)) ++ '/' :: core
      rw [ih (by simp)]
      simp

theorem trimSlashSuf_of_wf (segs : List (List Char))
    (h : ∀ s ∈ segs, wfSeg s) : trimSlashSuf (joinSlash segs) = joinSlash segs := by
  unfold trimSlashSuf
  cases hlast : (joinSlash segs).getLast? with
  | none => rfl
  | some c =>
    cases hc : c == '/' with
    | true =>
      have : c = '/' := by simpa using hc
      subst this
      exact absurd hlast (getLast_joinSlash segs h)
    | false =>
      have : ¬ c = '/' := by simpa using hc
      simp [this]

theorem cleanStep_push (rooted : Bool) (acc : List (List Char)) (s : List Char)
    (hs : wfSeg s) : cleanStep rooted acc s = s :: acc := by
  obtain ⟨h1, h2, h3, h4⟩ := hs
  unfold cleanStep
  rw [if_neg (by simp [h1, h3]), if_neg h4]

theorem foldl_cleanStep (rooted : Bool) (segs : List (List Char))
    (h : ∀ s ∈ segs, wfSeg s) :
    ∀ acc, segs.foldl (cleanStep rooted) acc = segs.reverse ++ acc := by
  induction segs with
  | nil => intro acc; rfl
  | cons s t ih =>
    intro acc
    rw [List.foldl_cons, cleanStep_push rooted acc s (h s (List.mem_cons_self _ _)),
      ih (fun x hx => h x (List.mem_cons_of_mem _ hx)) (s :: acc)]
    simp

theorem pathCleanChars_wf (segs : List (List Char)) (h : ∀ s ∈ segs, wfSeg s)
    (hne : segs ≠ []) : pathCleanChars (joinSlash segs) = joinSlash segs := by
  obtain ⟨s0, t0, rfl⟩ : ∃ s0 t0, segs = s0 :: t0 := by
    cases segs with
    | nil => exact absurd rfl hne
    | cons a b => exact ⟨a, b, rfl⟩
  have hp : joinSlash (s0 :: t0) ≠ [] :=
    joinSlash_ne_nil _ _ (h s0 (List.mem_cons_self _ _)).1
  have hroot : charsStartWith (joinSlash (s0 :: t0)) ['/'] = false := by
    have hs0ne := (h s0 (List.mem_cons_self _ _)).1
    have hslash := (h s0 (List.mem_cons_self _ _)).2.1
    have hh := headChar_joinSlash s0 t0 hs0ne
    obtain ⟨c0, cs0, rfl⟩ : ∃ c0 cs0, s0 = c0 :: cs0 := by
      cases s0 with
      | nil => exact absurd rfl hs0ne
      | cons a b => exact ⟨a, b, rfl⟩
    have hc0 : ¬ c0 = '/' := fun hx => hslash (hx ▸ List.mem_cons_self _ _)
    cases hjp : joinSlash ((c0 :: cs0) :: t0) with
    | nil => exact absurd hjp hp
    | cons c cs =>
      rw [hjp] at hh
      have hcc : c = c0 := by simpa using hh
      subst hcc
      simp [charsStartWith, hc0]
  have hsplit : splitSlash (joinSlash (s0 :: t0)) = s0 :: t0 :=
    splitSlash_joinSlash _ (fun x hx => (h x hx).2.1) (by simp)
  unfold pathCleanChars
  rw [if_neg hp]
  simp only [hsplit, hroot, Bool.false_eq_true, if_false,
    foldl_cleanStep _ _ h, List.append_nil, List.reverse_reverse]
  rw [if_neg hp]

theorem trimSlashSuf_concat (core : List Char) :
    trimSlashSuf (core ++ ['/']) = core := by
  unfold trimSlashSuf
  rw [List.getLast?_concat]
  exact List.dropLast_concat

theorem joinNonEmpty_data_left_nil (A B : String) (hA : A.data = [])
    (hB : B.data ≠ []) : (joinNonEmpty [A, B]).data = B.data := by
  show joinSlash (([A.data, B.data]).filter (fun l => l ≠ [])) = B.data
  rw [hA]
  simp only [List.filter, decide_not]
  simp [hB, joinSlash]

theorem joinNonEmpty_data_both (A B : String) (hA : A.data ≠ [])
    (hB : B.data ≠ []) :
    (joinNonEmpty [A, B]).data = A.data ++ '/' :: B.data := by
  show joinSlash (([A.data, B.data]).filter (fun l => l ≠ [])) = _
  simp only [List.filter, decide_not]
  simp [hA, hB, joinSlash]

theorem hasTrailSlash_concat (key : String) (core : List Char)
    (hkey : key.data = core ++ ['/']) : hasTrailSlash key = true := by
  unfold hasTrailSlash
  rw [hkey, List.getLast?_concat]
  rfl

theorem hasTrailSlash_wf (key : String) (core : List Char)
    (hkey : key.data = core) (hcore : wfSeg core) :
    hasTrailSlash key = false := by
  unfold hasTrailSlash
  rw [hkey]
  have hlast : core.getLast? ≠ some '/' := by
    have := getLast_joinSlash [core] (by simpa [wfSeg] using hcore)
    simpa [joinSlash] using this
  cases hl : core.getLast? with
  | none => rfl
  | some c =>
    cases hc : c == '/' with
    | true =>
      have : c = '/' := by simpa using hc
      subst this
      exact absurd hl hlast
    | false =>
      have : ¬ c = '/' := by simpa using hc
      simp [this]

theorem trimSuffixSlash_data (s : String) :
    (trimSuffixSlash s).data = trimSlashSuf s.data := rfl

theorem nextInner_data (inner key : String) (segs : List (List Char))
    (core : List Char) (hinner : inner.data = joinSlash segs)
    (hsegs : ∀ s ∈ segs, wfSeg s) (hkey : key.data = core ++ ['/'])
    (hcore : wfSeg core) :
    (joinNonEmpty [trimSuffixSlash inner, trimSuffixSlash key]).data =
      joinSlash (segs ++ [core]) := by
  have hA : (trimSuffixSlash inner).data = joinSlash segs := by
    rw [trimSuffixSlash_data, hinner, trimSlashSuf_of_wf segs hsegs]
  have hB : (trimSuffixSlash key).data = core := by
    rw [trimSuffixSlash_data, hkey, trimSlashSuf_concat]
  cases segs with
  | nil =>
    rw [joinNonEmpty_data_left_nil _ _ (by rw [hA]; rfl) (by rw [hB]; exact hcore.1),
      hB]
    rfl
  | cons s t =>
    rw [joinNonEmpty_data_both _ _
        (by rw [hA]; exact joinSlash_ne_nil s t (hsegs s (List.mem_cons_self _ _)).1)
        (by rw [hB]; exact hcore.1),
      hA, hB, joinSlash_concat _ _ (by simp)]

theorem leafInner_data (inner key : String) (segs : List (List Char))
    (core : List Char) (hinner : inner.data = joinSlash segs)
    (hsegs : ∀ s ∈ segs, wfSeg s) (hkey : key.data = core)
    (hcore : wfSeg core) :
    (joinNonEmpty [inner, key]).data = joinSlash (segs ++ [core]) := by
  cases segs with
  | nil =>
    rw [joinNonEmpty_data_left_nil _ _ (by rw [hinner]; rfl)
        (by rw [hkey]; exact hcore.1), hkey]
    rfl
  | cons s t =>
    rw [joinNonEmpty_data_both _ _
        (by rw [hinner]; exact joinSlash_ne_nil s t (hsegs s (List.mem_cons_self _ _)).1)
        (by rw [hkey]; exact hcore.1),
      hinner, hkey, joinSlash_concat _ _ (by simp)]

theorem joinNonEmpty_data_right_nil (A B : String) (hA : A.data ≠ [])
    (hB : B.data = []) : (joinNonEmpty [A, B]).data = A.data := by
  show joinSlash (([A.data, B.data]).filter (fun l => l ≠ [])) = A.data
  rw [hB]
  simp only [List.filter, decide_not]
  simp [hA, joinSlash]

theorem path_segCount (mount inner : String) (segs : List (List Char))
    (hmount : wfSeg mount.data) (hinner : inner.data = joinSlash segs)
    (hsegs : ∀ s ∈ segs, wfSeg s) :
    segCount (pathClean (joinNonEmpty [mount, inner])) = 1 + segs.length := by
  have hdata : (joinNonEmpty [mount, inner]).data =
      joinSlash (mount.data :: segs) := by
    cases segs with
    | nil =>
      rw [joinNonEmpty_data_right_nil _ _ hmount.1 (by rw [hinner]; rfl)]
      rfl
    | cons s t =>
      rw [joinNonEmpty_data_both _ _ hmount.1
          (by rw [hinner]; exact joinSlash_ne_nil s t (hsegs s (List.mem_cons_self _ _)).1),
        hinner]
      rfl
  have hwf : ∀ x ∈ mount.data :: segs, wfSeg x := by
    intro x hx
    rcases List.mem_cons.mp hx with rfl | hx'
    · exact hmount
    · exact hsegs x hx'
  show (splitSlash (pathCleanChars (joinNonEmpty [mount, inner]).data)).length = _
  rw [hdata, pathCleanChars_wf _ hwf (by simp),
    splitSlash_joinSlash _ (fun x hx => (hwf x hx).2.1) (by simp)]
  simp [Nat.add_comm]

/-- C2: depth bound.  For every walk with `maxDepth > 0` over a client
whose listing keys are well-formed single segments (`ListingKeysOK logical
wfKey` — the shape a Vault-like server returns), every `FoundItem` of the
batch result has at most `maxDepth` path segments beyond the starting
point: `segCount it.Path ≤ (1 + segs0.length) + maxDepth`, where
`1 + segs0.length` is the segment count of the start path
(mount plus inner segments).  Second conjunct: pruning — a subtree key
whose next depth would reach or exceed the bound is skipped entirely by
the key loop (no recursive call is made for it). -/
theorem C2_depth_bound
    (logical : LogicalAPI) (namePart start mount inner0 : String) (kv2 : Bool)
    (maxDepth : Nat) (matcher : Option (String → Bool)) (withValues : Bool)
    (fuel : Nat) (out : List FoundItem) (segs0 : List (List Char))
    (hmd : 0 < maxDepth)
    (hK : ListingKeysOK logical wfKey)
    (hsplit : SplitMount start = (mount, inner0))
    (hmount : wfSeg mount.data)
    (hinner0 : inner0.data = joinSlash segs0)
    (hsegs0 : ∀ s ∈ segs0, wfSeg s)
    (hwalk : WalkVault logical namePart start kv2 maxDepth matcher withValues
      fuel = .ok out) :
    (∀ it ∈ out, segCount it.Path ≤ 1 + segs0.length + maxDepth)
  ∧ (∀ (handle : String → Except String (List FoundItem))
      (rec : String → Nat → Except String (List FoundItem))
      (inner : String) (depth : Nat) (kj : JSON) (ks : List JSON),
      hasTrailSlash (asString kj) = true →
      maxDepth > 0 ∧ depth + 1 ≥ maxDepth →
      walkKeys handle rec maxDepth inner depth (kj :: ks) =
        walkKeys handle rec maxDepth inner depth ks) := by
  constructor
  · simp only [WalkVault, hsplit] at hwalk
    cases hrec : recurse logical namePart mount kv2 maxDepth matcher withValues
        fuel inner0 0 with
    | error e => rw [hrec] at hwalk; exact Except.noConfusion hwalk
    | ok out0 =>
      rw [hrec] at hwalk
      injection hwalk with hwalk
      subst hwalk
      intro it hit
      have hit0 : it ∈ out0 := (mem_sortByPath out0 it).mp hit
      refine recurse_emits logical namePart mount kv2 maxDepth matcher withValues
        wfKey
        (fun inner depth => ∃ segs, (∀ s ∈ segs, wfSeg s) ∧
          inner.data = joinSlash segs ∧ segs.length = segs0.length + depth)
        (fun it => segCount it.Path ≤ 1 + segs0.length + maxDepth)
        hK ?_ ?_ ?_ fuel inner0 0 out0
        ⟨segs0, hsegs0, hinner0, rfl⟩ hrec it hit0
      · intro inner depth key hI hk hs _
        obtain ⟨segs, hw, hd, hl⟩ := hI
        obtain ⟨core, hcore, hck⟩ := hk
        rcases hck with hck | hck
        · rw [hasTrailSlash_wf key core hck hcore] at hs
          exact Bool.noConfusion hs
        · refine ⟨segs ++ [core], ?_,
            nextInner_data inner key segs core hd hw hck hcore, ?_⟩
          · intro x hx
            rcases List.mem_append.mp hx with hx' | hx'
            · exact hw x hx'
            · rw [List.mem_singleton.mp hx']; exact hcore
          · simp only [List.length_append, List.length_singleton, hl]
            omega
      · intro inner depth items hI hg hh it' hit'
        obtain ⟨segs, hw, hd, hl⟩ := hI
        have hpath := (handleLeaf_emits logical namePart mount inner kv2 matcher
          withValues items hh it' hit').1
        rw [hpath, path_segCount mount inner segs hmount hd hw, hl]
        have hdep : depth ≤ maxDepth := by
          by_contra hlt
          exact hg ⟨hmd, by omega⟩
        omega
      · intro inner depth key items hI hk hs _ hg' hh it' hit'
        obtain ⟨segs, hw, hd, hl⟩ := hI
        obtain ⟨core, hcore, hck⟩ := hk
        rcases hck with hck | hck
        · have hwf2 : ∀ x ∈ segs ++ [core], wfSeg x := by
            intro x hx
            rcases List.mem_append.mp hx with hx' | hx'
            · exact hw x hx'
            · rw [List.mem_singleton.mp hx']; exact hcore
          have hpath := (handleLeaf_emits logical namePart mount
            (joinNonEmpty [inner, key]) kv2 matcher withValues items hh it' hit').1
          rw [hpath, path_segCount mount (joinNonEmpty [inner, key])
              (segs ++ [core]) hmount
              (leafInner_data inner key segs core hd hw hck hcore) hwf2]
          have hdep : depth + 1 ≤ maxDepth := by
            by_contra hlt
            exact hg' ⟨hmd, by omega⟩
          simp only [List.length_append, List.length_singleton, hl]
          omega
        · rw [hasTrailSlash_concat key core hck] at hs
          exact Bool.noConfusion hs
  · intro handle rec inner depth kj ks hs hg
    simp only [walkKeys]
    rw [if_pos hs, if_pos hg]

/-- C2, witness: the claim's concrete tree `secret -> (a/, b)`,
`secret/a -> (c)`: walking `secret` with maxDepth 1 yields exactly
`secret/b` (not `secret/a/c`), and the bound instantiates with
`segs0 = []`, maxDepth 1. -/
theorem C2_depth_bound_witness :
    (WalkVault c2api "" "secret" false 1 none false 10 =
      .ok [{ Path := "secret/b", Value := none }])
  ∧ segCount ({ Path := "secret/b", Value := none } : FoundItem).Path ≤
      1 + ([] : List (List Char)).length + 1 := by
  have hK : ListingKeysOK c2api wfKey := by
    intro p data keys h1 h2 kj hkj
    simp only [c2api, fakeLogical] at h1
    by_cases hp1 : p = "secret"
    · subst hp1
      simp only [show (List.lookup "secret"
          [("secret", Secret.mk (some [("keys", JSON.arr [.str "a/", .str "b"])])),
           ("secret/a", Secret.mk (some [("keys", JSON.arr [.str "c"])]))]) =
          some (Secret.mk (some [("keys", JSON.arr [.str "a/", .str "b"])])) from rfl,
        Except.ok.injEq, Option.some.injEq, Secret.mk.injEq] at h1
      subst h1
      rw [show List.lookup "keys" [("keys", JSON.arr [.str "a/", .str "b"])] =
          some (JSON.arr [.str "a/", .str "b"]) from rfl] at h2
      simp only [Option.some.injEq, JSON.arr.injEq] at h2
      subst h2
      simp only [List.mem_cons, List.not_mem_nil, or_false] at hkj
      rcases hkj with rfl | rfl
      · exact ⟨['a'], by unfold wfSeg; decide, Or.inr rfl⟩
      · exact ⟨['b'], by unfold wfSeg; decide, Or.inl rfl⟩
    · by_cases hp2 : p = "secret/a"
      · subst hp2
        simp only [show (List.lookup "secret/a"
            [("secret", Secret.mk (some [("keys", JSON.arr [.str "a/", .str "b"])])),
             ("secret/a", Secret.mk (some [("keys", JSON.arr [.str "c"])]))]) =
            some (Secret.mk (some [("keys", JSON.arr [.str "c"])])) from rfl,
          Except.ok.injEq, Option.some.injEq, Secret.mk.injEq] at h1
        subst h1
        rw [show List.lookup "keys" [("keys", JSON.arr [.str "c"])] =
            some (JSON.arr [.str "c"]) from rfl] at h2
        simp only [Option.some.injEq, JSON.arr.injEq] at h2
        subst h2
        simp only [List.mem_cons, List.not_mem_nil, or_false] at hkj
        rcases hkj with rfl
        exact ⟨['c'], by unfold wfSeg; decide, Or.inl rfl⟩
      · have hb1 : (p == "secret") = false := beq_eq_false_iff_ne.mpr hp1
        have hb2 : (p == "secret/a") = false := beq_eq_false_iff_ne.mpr hp2
        rw [show (List.lookup p
            [("secret", Secret.mk (some [("keys", JSON.arr [.str "a/", .str "b"])])),
             ("secret/a", Secret.mk (some [("keys", JSON.arr [.str "c"])]))]) =
            none by simp [List.lookup, hb1, hb2]] at h1
        exact Option.noConfusion (Except.ok.inj h1)
  refine ⟨rfl, (C2_depth_bound c2api "" "secret" "secret" "" false 1 none false 10
    [{ Path := "secret/b", Value := none }] [] (by decide) hK rfl
    (by unfold wfSeg; decide) rfl
    (fun s hs => absurd hs (List.not_mem_nil s)) rfl).1
    { Path := "secret/b", Value := none } (by simp)⟩

/-- C4: value read normalization for v2 reads.  A record nesting a mapping
under `"data"` yields that mapping; a record whose `"data"` key is absent
yields an empty mapping; a present-but-non-mapping (including null) value
yields an empty mapping without error; and a read returning no record at
all fails with the not-found-style `"no data at ..."` error. -/
theorem C4_value_read_normalization :
    (∀ (logical : LogicalAPI) (mount inner : String) (d kvs : List (String × JSON)),
      logical.read (ReadAPIPath mount inner true) = .ok (some ⟨some d⟩) →
      d.lookup "data" = some (.obj kvs) →
      ReadSecret logical mount inner true = .ok (.obj kvs))
  ∧ (∀ (logical : LogicalAPI) (mount inner : String) (d : List (String × JSON)),
      logical.read (ReadAPIPath mount inner true) = .ok (some ⟨some d⟩) →
      d.lookup "data" = none →
      ReadSecret logical mount inner true = .ok (.obj []))
  ∧ (∀ (logical : LogicalAPI) (mount inner : String) (d : List (String × JSON)) (j : JSON),
      logical.read (ReadAPIPath mount inner true) = .ok (some ⟨some d⟩) →
      d.lookup "data" = some j →
      (∀ kvs, j ≠ .obj kvs) →
      ReadSecret logical mount inner true = .ok (.obj []))
  ∧ (∀ (logical : LogicalAPI) (mount inner : String),
      logical.read (ReadAPIPath mount inner true) = .ok none →
      ReadSecret logical mount inner true =
        .error ("no data at " ++ ReadAPIPath mount inner true)) := by
  refine ⟨?_, ?_, ?_, ?_⟩
  · intro logical mount inner d kvs h1 h2
    simp [ReadSecret, h1, h2]
  · intro logical mount inner d h1 h2
    simp [ReadSecret, h1, h2]
  · intro logical mount inner d j h1 h2 h3
    cases j <;> simp [ReadSecret, h1, h2]
    exact absurd rfl (h3 _)
  · intro logical mount inner h1
    simp [ReadSecret, h1]

/-- C5: fallback triggering and error choice.  A successful primary call
is returned as-is; a primary failure that is not permission-denied
propagates unchanged (the result does not consult the secondary endpoint);
on a 403, if the secondary call fails or carries no usable data the
original primary error is returned; and on a 403 with usable secondary
data the merged mounts are returned. -/
theorem C5_fallback_trigger_and_error_choice :
    (∀ (c : VaultClient) (ms : List (String × MountOutput)),
      c.listMounts = .ok ms → ListMountsWithFallback c = .ok ms)
  ∧ (∀ (c : VaultClient) (err : VErr),
      c.listMounts = .error err → isPermissionDenied err = false →
      ListMountsWithFallback c = .error err)
  ∧ (∀ (c : VaultClient) (err : VErr),
      c.listMounts = .error err → isPermissionDenied err = true →
      ((∃ e2, c.logicalRead "sys/internal/ui/mounts" = .error e2) ∨
       c.logicalRead "sys/internal/ui/mounts" = .ok none ∨
       c.logicalRead "sys/internal/ui/mounts" = .ok (some ⟨none⟩)) →
      ListMountsWithFallback c = .error err)
  ∧ (∀ (c : VaultClient) (err : VErr) (d : List (String × JSON)),
      c.listMounts = .error err → isPermissionDenied err = true →
      c.logicalRead "sys/internal/ui/mounts" = .ok (some ⟨some d⟩) →
      ListMountsWithFallback c = .ok (mergeAll d)) := by
  refine ⟨?_, ?_, ?_, ?_⟩
  · intro c ms h1
    simp [ListMountsWithFallback, h1]
  · intro c err h1 h2
    simp [ListMountsWithFallback, h1, h2]
  · intro c err h1 h2 h3
    rcases h3 with ⟨e2, h3⟩ | h3 | h3 <;> simp [ListMountsWithFallback, h1, h2, h3]
  · intro c err d h1 h2 h3
    simp [ListMountsWithFallback, h1, h2, h3]

/-- C6: filter predicate semantics.  No filters: always true; name filter
only: case-insensitive substring containment on the base name; regex only:
the matcher applied to the full path; both: OR of the two.  Concretely,
namePart `"bad"` with a regex matching `secret/app/config` matches, and
with a non-matching regex it does not. -/
theorem C6_filter_predicate_semantics :
    (∀ baseName fullPath : String, NameOrRegexMatch "" baseName fullPath none = true)
  ∧ (∀ namePart baseName fullPath : String, namePart ≠ "" →
      NameOrRegexMatch namePart baseName fullPath none =
        listContains (toLowerChars baseName.data) (toLowerChars namePart.data))
  ∧ (∀ (m : String → Bool) (baseName fullPath : String),
      NameOrRegexMatch "" baseName fullPath (some m) = m fullPath)
  ∧ (∀ (namePart : String) (m : String → Bool) (baseName fullPath : String),
      namePart ≠ "" →
      NameOrRegexMatch namePart baseName fullPath (some m) =
        (listContains (toLowerChars baseName.data) (toLowerChars namePart.data)
          || m fullPath))
  ∧ NameOrRegexMatch "bad" "config" "secret/app/config"
      (some fun s => s == "secret/app/config") = true
  ∧ NameOrRegexMatch "bad" "config" "secret/app/config"
      (some fun s => s == "other/path") = false := by
  refine ⟨?_, ?_, ?_, ?_, rfl, rfl⟩
  · intro baseName fullPath
    rfl
  · intro namePart baseName fullPath h
    have hb : (namePart != "") = true := bne_iff_ne.mpr h
    simp [NameOrRegexMatch, nameMatch, h, hb]
  · intro m baseName fullPath
    rfl
  · intro namePart m baseName fullPath h
    have hb : (namePart != "") = true := bne_iff_ne.mpr h
    simp [NameOrRegexMatch, nameMatch, h, hb]

/-- C9: version detection two-part return.  Failed discovery or an
unknown root give (false, false); a root of non-kv type gives
(false, true); a kv root gives (true, true) exactly when its options carry
version "2", and (false, true) for a missing or different version. -/
theorem C9_version_detection :
    (∀ (c : VaultClient) (start : String) (e : VErr),
      ListMountsWithFallback c = .error e → DetectKV2 c start = (false, false))
  ∧ (∀ (c : VaultClient) (start : String) (ms : List (String × MountOutput)),
      ListMountsWithFallback c = .ok ms →
      ms.lookup ((SplitMount start).1 ++ "/") = none →
      DetectKV2 c start = (false, false))
  ∧ (∀ (c : VaultClient) (start : String) (ms : List (String × MountOutput))
        (m : MountOutput),
      ListMountsWithFallback c = .ok ms →
      ms.lookup ((SplitMount start).1 ++ "/") = some m →
      m.type ≠ "kv" →
      DetectKV2 c start = (false, true))
  ∧ (∀ (c : VaultClient) (start : String) (ms : List (String × MountOutput))
        (m : MountOutput),
      ListMountsWithFallback c = .ok ms →
      ms.lookup ((SplitMount start).1 ++ "/") = some m →
      m.type = "kv" →
      m.options.lookup "version" = some "2" →
      DetectKV2 c start = (true, true))
  ∧ (∀ (c : VaultClient) (start : String) (ms : List (String × MountOutput))
        (m : MountOutput),
      ListMountsWithFallback c = .ok ms →
      ms.lookup ((SplitMount start).1 ++ "/") = some m →
      m.type = "kv" →
      (m.options.lookup "version" = none ∨
        ∃ v, m.options.lookup "version" = some v ∧ v ≠ "2") →
      DetectKV2 c start = (false, true)) := by
  refine ⟨?_, ?_, ?_, ?_, ?_⟩
  · intro c start e h1
    simp [DetectKV2, h1]
  · intro c start ms h1 h2
    simp [DetectKV2, h1, h2]
  · intro c start ms m h1 h2 h3
    simp [DetectKV2, h1, h2, h3]
  · intro c start ms m h1 h2 h3 h4
    simp [DetectKV2, h1, h2, h3, h4]
  · intro c start ms m h1 h2 h3 h4
    rcases h4 with h4 | ⟨v, h4, hv⟩ <;> simp [DetectKV2, h1, h2, h3, h4, *]

/-- C3: leaf on empty listing.  Whenever the list-children call succeeds
but returns no data (nil record, or a record with nil data), `recurse`
resolves the current path itself through `handleLeaf` — a leaf, not an
empty subtree or an error. -/
theorem C3_leaf_on_empty_listing
    (logical : LogicalAPI) (namePart mount inner : String) (kv2 : Bool)
    (maxDepth : Nat) (matcher : Option (String → Bool)) (withValues : Bool)
    (fuel depth : Nat)
    (hguard : ¬(maxDepth > 0 ∧ depth > maxDepth))
    (hlist : logical.list (ListAPIPath mount inner kv2) = .ok none ∨
             logical.list (ListAPIPath mount inner kv2) = .ok (some ⟨none⟩)) :
    recurse logical namePart mount kv2 maxDepth matcher withValues (fuel + 1) inner depth =
      handleLeaf logical namePart mount inner kv2 matcher withValues := by
  rcases hlist with h | h <;> simp [recurse, hguard, h]

/-- C3, witness: under the fixture with no listings, walking the concrete
leaf `secret/x` returns exactly that path. -/
theorem C3_leaf_on_empty_listing_witness :
    (recurse c3api "" "secret" false 0 none false 1 "x" 0 =
      handleLeaf c3api "" "secret" "x" false none false)
  ∧ WalkVault c3api "" "secret/x" false 0 none false 2 =
      .ok [{ Path := "secret/x", Value := none }] :=
  ⟨C3_leaf_on_empty_listing c3api "" "secret" "x" false 0 none false 0 0
      (by decide) (Or.inl rfl),
   rfl⟩

/-- C7: always-fetch-then-filter.  With value fetching enabled,
`handleLeaf` performs the value read unconditionally — a read error aborts
the leaf resolution with that error even when the filter does not match —
and on success it emits a `FoundItem` carrying the value iff the filter
predicate matches. -/
theorem C7_always_fetch_then_filter
    (logical : LogicalAPI) (namePart mount inner : String) (kv2 : Bool)
    (matcher : Option (String → Bool)) :
    (∀ e, ReadSecret logical mount inner kv2 = .error e →
      handleLeaf logical namePart mount inner kv2 matcher true = .error e)
  ∧ (∀ v, ReadSecret logical mount inner kv2 = .ok v →
      handleLeaf logical namePart mount inner kv2 matcher true =
        .ok (if NameOrRegexMatch namePart
                  (pathBase (pathClean (joinNonEmpty [mount, inner])))
                  (pathClean (joinNonEmpty [mount, inner])) matcher
             then [{ Path := pathClean (joinNonEmpty [mount, inner]),
                     Value := some v }]
             else [])) := by
  constructor
  · intro e h
    simp [handleLeaf, h]
  · intro v h
    simp only [handleLeaf, h, if_true]
    split <;> simp

/-- C7, witness: a non-matching leaf whose read fails aborts with the read
error (so the fetch did happen); a matching leaf emits path plus value; a
non-matching leaf with a successful read emits nothing. -/
theorem C7_always_fetch_then_filter_witness :
    (handleLeaf c7api "bad" "secret" "bombs" false none true =
      .error "read exploded")
  ∧ (handleLeaf c7api "" "secret" "app/config" false none true =
      .ok [{ Path := "secret/app/config",
             Value := some (.obj [("k", .str "v")]) }])
  ∧ (handleLeaf c7api "zzz" "secret" "app/config" false none true = .ok []) :=
  ⟨(C7_always_fetch_then_filter c7api "bad" "secret" "bombs" false none).1
      "read exploded" rfl,
   (C7_always_fetch_then_filter c7api "" "secret" "app/config" false none).2
      (.obj [("k", .str "v")]) rfl,
   (C7_always_fetch_then_filter c7api "zzz" "secret" "app/config" false none).2
      (.obj [("k", .str "v")]) rfl⟩

/-- C4, witness: the four record shapes instantiated on the `c4api`
fixture. -/
theorem C4_value_read_normalization_witness :
    ReadSecret c4api "kv" "good" true = .ok (.obj [("a", .str "b")])
  ∧ ReadSecret c4api "kv" "empty" true = .ok (.obj [])
  ∧ ReadSecret c4api "kv" "nulld" true = .ok (.obj [])
  ∧ ReadSecret c4api "kv" "bad" true = .ok (.obj [])
  ∧ ReadSecret c4api "kv" "missing" true =
      .error ("no data at " ++ ReadAPIPath "kv" "missing" true) :=
  ⟨C4_value_read_normalization.1 c4api "kv" "good"
      [("data", .obj [("a", .str "b")])] [("a", .str "b")] rfl rfl,
   C4_value_read_normalization.2.1 c4api "kv" "empty" [("meta", .num 1)] rfl rfl,
   C4_value_read_normalization.2.2.1 c4api "kv" "nulld" [("data", .null)] .null
      rfl rfl (fun _ h => JSON.noConfusion h),
   C4_value_read_normalization.2.2.1 c4api "kv" "bad" [("data", .str "oops")]
      (.str "oops") rfl rfl (fun _ h => JSON.noConfusion h),
   C4_value_read_normalization.2.2.2 c4api "kv" "missing" rfl⟩

/-- C5, witness: the four trigger/error cases instantiated on concrete
clients. -/
theorem C5_fallback_trigger_and_error_choice_witness :
    ListMountsWithFallback c5okClient = .ok [("secret/", { type := "kv" })]
  ∧ ListMountsWithFallback c5otherErr = .error (.other "network down")
  ∧ ListMountsWithFallback c5deniedBad = .error (.resp 403)
  ∧ ListMountsWithFallback c5deniedOk = .ok [("m1", { type := "kv" })] :=
  ⟨C5_fallback_trigger_and_error_choice.1 c5okClient
      [("secret/", { type := "kv" })] rfl,
   C5_fallback_trigger_and_error_choice.2.1 c5otherErr (.other "network down")
      rfl rfl,
   C5_fallback_trigger_and_error_choice.2.2.1 c5deniedBad (.resp 403) rfl rfl
      (Or.inl ⟨.other "fallback down", rfl⟩),
   C5_fallback_trigger_and_error_choice.2.2.2 c5deniedOk (.resp 403)
      [("m1", .obj [("type", .str "kv")])] rfl rfl rfl⟩

/-- C6, witness: the single-filter clauses instantiated at concrete
name/path inputs. -/
theorem C6_filter_predicate_semantics_witness :
    NameOrRegexMatch "conf" "config" "secret/app/config" none = true
  ∧ NameOrRegexMatch "x" "config" "secret/app/config"
      (some fun s => s == "secret/app/config") = true :=
  ⟨Eq.trans
      (C6_filter_predicate_semantics.2.1 "conf" "config" "secret/app/config"
        (by decide)) rfl,
   Eq.trans
      (C6_filter_predicate_semantics.2.2.2.1 "x"
        (fun s => s == "secret/app/config") "config" "secret/app/config"
        (by decide)) rfl⟩

/-- C9, witness: all five detection outcomes instantiated on concrete
clients. -/
theorem C9_version_detection_witness :
    DetectKV2 c9failClient "kv2m/app" = (false, false)
  ∧ DetectKV2 c9client "unknown/app" = (false, false)
  ∧ DetectKV2 c9client "cubby/x" = (false, true)
  ∧ DetectKV2 c9client "kv2m/app" = (true, true)
  ∧ DetectKV2 c9client "kv1m/app" = (false, true)
  ∧ DetectKV2 c9client "plainkv/app" = (false, true) :=
  ⟨C9_version_detection.1 c9failClient "kv2m/app" (.other "boom") rfl,
   C9_version_detection.2.1 c9client "unknown/app"
      [("kv2m/", { type := "kv", options := [("version", "2")] }),
       ("kv1m/", { type := "kv", options := [("version", "1")] }),
       ("plainkv/", { type := "kv" }),
       ("cubby/", { type := "cubbyhole" })] rfl rfl,
   C9_version_detection.2.2.1 c9client "cubby/x"
      [("kv2m/", { type := "kv", options := [("version", "2")] }),
       ("kv1m/", { type := "kv", options := [("version", "1")] }),
       ("plainkv/", { type := "kv" }),
       ("cubby/", { type := "cubbyhole" })]
      { type := "cubbyhole" } rfl rfl (by decide),
   C9_version_detection.2.2.2.1 c9client "kv2m/app"
      [("kv2m/", { type := "kv", options := [("version", "2")] }),
       ("kv1m/", { type := "kv", options := [("version", "1")] }),
       ("plainkv/", { type := "kv" }),
       ("cubby/", { type := "cubbyhole" })]
      { type := "kv", options := [("version", "2")] } rfl rfl rfl rfl,
   C9_version_detection.2.2.2.2 c9client "kv1m/app"
      [("kv2m/", { type := "kv", options := [("version", "2")] }),
       ("kv1m/", { type := "kv", options := [("version", "1")] }),
       ("plainkv/", { type := "kv" }),
       ("cubby/", { type := "cubbyhole" })]
      { type := "kv", options := [("version", "1")] } rfl rfl rfl
      (Or.inr ⟨"1", rfl, by decide⟩),
   C9_version_detection.2.2.2.2 c9client "plainkv/app"
      [("kv2m/", { type := "kv", options := [("version", "2")] }),
       ("kv1m/", { type := "kv", options := [("version", "1")] }),
       ("plainkv/", { type := "kv" }),
       ("cubby/", { type := "cubbyhole" })]
      { type := "kv" } rfl rfl rfl (Or.inl rfl)⟩
